import Mathlib

/-!
Verification of the candlestick preprocessing pipeline (`preprocessing.py`).

Shallow embedding conventions:
* timestamps (`open_time`, `close_time`, `datetime`) are `Int` millisecond
  epochs; one minute (`timedelta(minutes=1)`) is the constant `60000`;
* price/volume cells are modelled as `Rat` (the code only copies, zeroes and
  compares them, it never does float-specific arithmetic on them);
* a raw CSV cell that may be `NaN` is modelled as an `Option` (pandas treats
  two `NaN`s as duplicates of each other in `Series.duplicated`, which
  matches decidable equality on `Option`);
* a Python `assert`/raising call is modelled as `Except String`, the error
  string naming the failure class from the design (`IntegrityViolation`,
  `TypeCastError`).
-/

/-- One minute expressed in milliseconds, the unit of all timestamps. -/
def minuteMs : Int := 60000

/-- A row of the dataframe at the gap-filling stage of the pipeline:
columns `open, high, low, close, volume, quote_asset_volume,
number_of_trades, taker_buy_base_asset_volume, taker_buy_quote_asset_volume`
plus the materialized `datetime` column (`df['datetime'] = df.index`).
The Python column name `open` is a Lean keyword, hence the field `open_`. -/
structure Record where
  open_ : Rat
  high : Rat
  low : Rat
  close : Rat
  volume : Rat
  quote_asset_volume : Rat
  number_of_trades : Int
  taker_buy_base_asset_volume : Rat
  taker_buy_quote_asset_volume : Rat
  datetime : Int
deriving DecidableEq

/-- The body of the `while` loop of `addMissingMinutes`: starting from a copy
`current` of the previous row, as long as `current['datetime'] +
timedelta(minutes=1) < row['datetime']`, advance the timestamp one minute,
zero the volume/trade fields, flatten `low/high/open` to `close`, and append
a copy of the row. -/
def fillLoop (current : Record) (target : Int) : List Record :=
  if current.datetime + minuteMs < target then
    let c : Record :=
      { current with
        datetime := current.datetime + minuteMs
        volume := 0
        quote_asset_volume := 0
        number_of_trades := 0
        taker_buy_base_asset_volume := 0
        taker_buy_quote_asset_volume := 0
        low := current.close
        high := current.close
        open_ := current.close }
    c :: fillLoop c target
  else []
termination_by (target - current.datetime).toNat
decreasing_by
  simp only [minuteMs] at *
  omega

/-- The guard `len(previousRow) and row['datetime'] - previousRow['datetime']
> timedelta(minutes=1)` of `addMissingMinutes` together with the `while` loop
it guards: the rows synthesized before appending `row`, given the current
`previousRow` (`none` models the initial empty `previousRow`). -/
def gapFill (prev? : Option Record) (row : Record) : List Record :=
  match prev? with
  | none => []
  | some prev =>
    if row.datetime - prev.datetime > minuteMs then fillLoop prev row.datetime
    else []

/-- The `for row in initialData` loop of `addMissingMinutes`: synthesized
rows for the gap are appended before the current real row, and `previousRow`
is updated to the real row. -/
def addMissingMinutesGo : Option Record → List Record → List Record
  | _, [] => []
  | prev?, row :: rest =>
    gapFill prev? row ++ row :: addMissingMinutesGo (some row) rest

/-- `addMissingMinutes(initialData)`: repeat entries to fill up for missing
minutes. -/
def addMissingMinutes (initialData : List Record) : List Record :=
  addMissingMinutesGo none initialData

/-- The synthesized row that `fillLoop` derives from a base row: the base
row with its timestamp replaced by `dt`, its volume/trade fields zeroed and
`open = high = low = close` all equal to the base row's close. -/
def fillerAtMs (base : Record) (dt : Int) : Record :=
  { base with
    datetime := dt
    volume := 0
    quote_asset_volume := 0
    number_of_trades := 0
    taker_buy_base_asset_volume := 0
    taker_buy_quote_asset_volume := 0
    low := base.close
    high := base.close
    open_ := base.close }

/-- The ladder of `n` synthesized rows based on `base`, at minutes
`t+1, t+2, …, t+n` (timestamps in milliseconds). -/
def ladder (base : Record) (t : Int) : Nat → List Record
  | 0 => []
  | n + 1 => fillerAtMs base ((t + 1) * minuteMs) :: ladder base (t + 1) n

/-- Consecutive-row relation: the second row is exactly one minute after the
first. -/
def oneMin (a b : Record) : Prop := b.datetime = a.datetime + minuteMs

/-- All rows of a list have minute-aligned timestamps. -/
def minuteAligned (l : List Record) : Prop := ∀ r ∈ l, minuteMs ∣ r.datetime

/-- A list of rows is sorted (non-strictly) ascending by timestamp. -/
def sortedAsc (l : List Record) : Prop :=
  l.Chain' (fun a b => a.datetime ≤ b.datetime)

/-- A list of rows is sorted strictly ascending by timestamp. -/
def strictlyAsc (l : List Record) : Prop :=
  l.Chain' (fun a b => a.datetime < b.datetime)

/-- Total number of missing minutes across all gaps between consecutive
rows of a list (for a minute-aligned strictly ascending list, each gap of
`k` minutes contributes `k - 1`). -/
def gapsMissing : List Record → Nat
  | a :: b :: rest =>
    ((b.datetime - a.datetime) / minuteMs - 1).toNat + gapsMissing (b :: rest)
  | _ => 0

/-- The `previousRow` value after processing `pre` starting from `p`. -/
def lastPrev (p : Option Record) (pre : List Record) : Option Record :=
  match pre.getLast? with
  | some x => some x
  | none => p

-- Basic structural lemmas about the gap filler -------------------------------

theorem fillerAtMs_fillerAtMs (b : Record) (d1 d2 : Int) :
    fillerAtMs (fillerAtMs b d1) d2 = fillerAtMs b d2 := rfl

theorem ladder_fillerAtMs (b : Record) (d : Int) :
    ∀ (n : Nat) (t : Int), ladder (fillerAtMs b d) t n = ladder b t n := by
  intro n
  induction n with
  | zero => intro t; rfl
  | succ n ih =>
    intro t
    simp [ladder, fillerAtMs_fillerAtMs, ih]

theorem ladder_length (b : Record) :
    ∀ (n : Nat) (t : Int), (ladder b t n).length = n := by
  intro n
  induction n with
  | zero => intro t; rfl
  | succ n ih => intro t; simp [ladder, ih]

/-- Unfolding of `fillLoop` on a target exactly `1 + n` minutes ahead. -/
theorem fillLoop_eq_ladder_aux (n : Nat) :
    ∀ (c : Record) (t : Int), c.datetime = t * minuteMs →
      fillLoop c ((t + 1 + n) * minuteMs) = ladder c t n := by
  induction n with
  | zero =>
    intro c t hc
    rw [fillLoop]
    have : ¬ c.datetime + minuteMs < (t + 1 + (0 : Nat)) * minuteMs := by
      simp only [hc, minuteMs]
      push_cast
      omega
    rw [if_neg this]
    rfl
  | succ n ih =>
    intro c t hc
    rw [fillLoop]
    have hlt : c.datetime + minuteMs < (t + 1 + (n + 1 : Nat)) * minuteMs := by
      simp only [hc, minuteMs]
      push_cast
      nlinarith
    rw [if_pos hlt]
    have hstep :
        ({ c with
            datetime := c.datetime + minuteMs
            volume := 0
            quote_asset_volume := 0
            number_of_trades := 0
            taker_buy_base_asset_volume := 0
            taker_buy_quote_asset_volume := 0
            low := c.close
            high := c.close
            open_ := c.close } : Record) = fillerAtMs c ((t + 1) * minuteMs) := by
      simp only [fillerAtMs, hc]
      have : t * minuteMs + minuteMs = (t + 1) * minuteMs := by ring
      rw [this]
    have htarget : (t + 1 + (n + 1 : Nat)) * minuteMs = ((t + 1) + 1 + n) * minuteMs := by
      push_cast
      ring
    have hdt : (fillerAtMs c ((t + 1) * minuteMs)).datetime = (t + 1) * minuteMs := rfl
    simp only [hstep, htarget, ladder]
    rw [ih (fillerAtMs c ((t + 1) * minuteMs)) (t + 1) hdt, ladder_fillerAtMs]

/-- Characterization of the `while` loop: from a base row at minute `t`
toward a target at minute `t + k`, the loop emits the ladder of `(k-1).toNat`
synthesized rows (none when `k ≤ 1`). -/
theorem fillLoop_eq_ladder (c : Record) (t k : Int) (hc : c.datetime = t * minuteMs) :
    fillLoop c ((t + k) * minuteMs) = ladder c t (k - 1).toNat := by
  rcases le_or_lt k 1 with hk | hk
  · rw [fillLoop]
    have hle : (t + k) * minuteMs ≤ c.datetime + minuteMs := by
      rw [hc]
      simp only [minuteMs]
      nlinarith
    rw [if_neg (not_lt.mpr hle)]
    have h0 : (k - 1).toNat = 0 := by omega
    rw [h0]
    rfl
  · have hn : t + k = t + 1 + ((k - 1).toNat : Int) := by omega
    rw [hn]
    exact fillLoop_eq_ladder_aux (k - 1).toNat c t hc

/-- The `i`-th synthesized row of a ladder starting after minute `t` sits at
minute `t + 1 + i`. -/
theorem ladder_get (b : Record) :
    ∀ (n : Nat) (t : Int) (i : Nat) (h : i < (ladder b t n).length),
      (ladder b t n).get ⟨i, h⟩ = fillerAtMs b ((t + 1 + (i : Int)) * minuteMs) := by
  intro n
  induction n with
  | zero =>
    intro t i h
    exact absurd h (by simp [ladder])
  | succ n ih =>
    intro t i h
    cases i with
    | zero =>
      show fillerAtMs b ((t + 1) * minuteMs)
        = fillerAtMs b ((t + 1 + ((0 : Nat) : Int)) * minuteMs)
      norm_num
    | succ i =>
      have h' : i < (ladder b (t + 1) n).length := by
        simpa [ladder] using h
      show (ladder b (t + 1) n).get ⟨i, h'⟩
        = fillerAtMs b ((t + 1 + ((Nat.succ i : Nat) : Int)) * minuteMs)
      rw [ih (t + 1) i h']
      congr 1
      push_cast
      ring

theorem ladder_mem_fields (b : Record) :
    ∀ (n : Nat) (t : Int) (f : Record), f ∈ ladder b t n →
      f.volume = 0 ∧ f.quote_asset_volume = 0 ∧ f.number_of_trades = 0
        ∧ f.taker_buy_base_asset_volume = 0 ∧ f.taker_buy_quote_asset_volume = 0
        ∧ f.open_ = b.close ∧ f.high = b.close ∧ f.low = b.close ∧ f.close = b.close := by
  intro n
  induction n with
  | zero => intro t f hf; exact absurd hf (List.not_mem_nil f)
  | succ n ih =>
    intro t f hf
    rcases List.mem_cons.mp hf with h | h
    · subst h
      exact ⟨rfl, rfl, rfl, rfl, rfl, rfl, rfl, rfl, rfl⟩
    · exact ih (t + 1) f h

theorem chain_ladder (b : Record) :
    ∀ (n : Nat) (p row : Record) (t : Int),
      p.datetime = t * minuteMs → row.datetime = (t + 1 + n) * minuteMs →
      List.Chain' oneMin (p :: (ladder b t n ++ [row])) := by
  intro n
  induction n with
  | zero =>
    intro p row t hp hrow
    have : oneMin p row := by
      show row.datetime = p.datetime + minuteMs
      rw [hp, hrow]
      push_cast
      ring
    simpa [ladder] using this
  | succ n ih =>
    intro p row t hp hrow
    rw [ladder, List.cons_append, List.chain'_cons]
    refine ⟨?_, ih (fillerAtMs b ((t + 1) * minuteMs)) row (t + 1) rfl ?_⟩
    · show (fillerAtMs b ((t + 1) * minuteMs)).datetime = p.datetime + minuteMs
      show (t + 1) * minuteMs = p.datetime + minuteMs
      rw [hp]
      ring
    · rw [hrow]
      push_cast
      ring_nf

theorem lastPrev_cons (p : Option Record) (a : Record) (pre : List Record) :
    lastPrev p (a :: pre) = lastPrev (some a) pre := by
  cases pre with
  | nil => rfl
  | cons b l =>
    have hne : (b :: l : List Record) ≠ [] := by simp
    rw [lastPrev, lastPrev, List.getLast?_cons_cons,
      List.getLast?_eq_getLast (b :: l) hne]

theorem lastPrev_concat (p : Option Record) (pre : List Record) (x : Record) :
    lastPrev p (pre ++ [x]) = some x := by
  simp [lastPrev, List.getLast?_concat]

/-- Splitting the traversal of `addMissingMinutes`: processing `pre ++ rest`
is processing `pre`, then processing `rest` with the previous row set to the
last row of `pre`. -/
theorem go_append (rest : List Record) :
    ∀ (pre : List Record) (p : Option Record),
      addMissingMinutesGo p (pre ++ rest)
        = addMissingMinutesGo p pre ++ addMissingMinutesGo (lastPrev p pre) rest := by
  intro pre
  induction pre with
  | nil => intro p; simp [addMissingMinutesGo, lastPrev]
  | cons a pre' ih =>
    intro p
    rw [List.cons_append]
    show gapFill p a ++ a :: addMissingMinutesGo (some a) (pre' ++ rest)
      = (gapFill p a ++ a :: addMissingMinutesGo (some a) pre')
          ++ addMissingMinutesGo (lastPrev p (a :: pre')) rest
    rw [ih (some a), lastPrev_cons]
    simp [List.append_assoc]

/-- The gap filler always ends its output with the last input row. -/
theorem go_getLast (x : Record) :
    ∀ (l : List Record) (p : Option Record),
      (addMissingMinutesGo p (l ++ [x])).getLast? = some x := by
  intro l
  induction l with
  | nil =>
    intro p
    show (gapFill p x ++ x :: addMissingMinutesGo (some x) []).getLast? = some x
    rw [show x :: addMissingMinutesGo (some x) [] = [x] from rfl]
    exact List.getLast?_concat _
  | cons a l' ih =>
    intro p
    rw [List.cons_append]
    show (gapFill p a ++ a :: addMissingMinutesGo (some a) (l' ++ [x])).getLast? = some x
    rw [List.getLast?_append_cons, List.getLast?_cons, ih (some a)]
    rfl

/-- A gap of `k ≤ 1` minutes produces no synthesized rows. -/
theorem gapFill_eq_nil (prev row : Record) (t k : Int)
    (hp : prev.datetime = t * minuteMs) (hr : row.datetime = (t + k) * minuteMs)
    (hk : k ≤ 1) :
    gapFill (some prev) row = [] := by
  show (if row.datetime - prev.datetime > minuteMs then fillLoop prev row.datetime else [])
    = []
  have hmul : k * (60000 : Int) ≤ 1 * 60000 :=
    mul_le_mul_of_nonneg_right hk (by norm_num)
  have hexp : (t + k) * (60000 : Int) - t * 60000 = k * 60000 := by ring
  have hne : ¬ (row.datetime - prev.datetime > minuteMs) := by
    rw [hp, hr]
    simp only [minuteMs, gt_iff_lt, not_lt]
    rw [hexp]
    linarith
  rw [if_neg hne]

/-- A gap of `k ≥ 1` minutes produces exactly the ladder of `k - 1`
synthesized rows. -/
theorem gapFill_eq_ladder (prev row : Record) (t k : Int)
    (hp : prev.datetime = t * minuteMs) (hr : row.datetime = (t + k) * minuteMs)
    (hk : 1 ≤ k) :
    gapFill (some prev) row = ladder prev t (k - 1).toNat := by
  rcases le_or_lt k 1 with h1 | h1
  · rw [gapFill_eq_nil prev row t k hp hr h1]
    have h0 : (k - 1).toNat = 0 := by omega
    rw [h0]
    rfl
  · show (if row.datetime - prev.datetime > minuteMs then fillLoop prev row.datetime else [])
      = ladder prev t (k - 1).toNat
    have hmul : (1 : Int) * 60000 < k * 60000 :=
      mul_lt_mul_of_pos_right h1 (by norm_num)
    have hexp : (t + k) * (60000 : Int) - t * 60000 = k * 60000 := by ring
    have hyes : row.datetime - prev.datetime > minuteMs := by
      rw [hp, hr]
      simp only [minuteMs, gt_iff_lt]
      rw [hexp]
      linarith
    rw [if_pos hyes, hr]
    exact fillLoop_eq_ladder prev t k hp

/-- Every input row survives the gap filler, in input order. -/
theorem sublist_go :
    ∀ (l : List Record) (p : Option Record), l.Sublist (addMissingMinutesGo p l) := by
  intro l
  induction l with
  | nil => intro p; exact List.Sublist.refl []
  | cons row rest ih =>
    intro p
    have h1 : (row :: rest).Sublist (row :: addMissingMinutesGo (some row) rest) :=
      List.Sublist.cons₂ row (ih (some row))
    exact h1.trans (List.sublist_append_right _ _)

-- Cleaning path: assert_integrity and quick_clean ----------------------------

/-- A raw CSV row as read by `pd.read_csv`: the twelve header columns, each
cell possibly `NaN` (modelled as `none`). -/
structure RawRow where
  open_time : Option Int
  open_ : Option Rat
  high : Option Rat
  low : Option Rat
  close : Option Rat
  volume : Option Rat
  close_time : Option Int
  quote_asset_volume : Option Rat
  number_of_trades : Option Int
  taker_buy_base_asset_volume : Option Rat
  taker_buy_quote_asset_volume : Option Rat
  ignore : Option Rat
deriving DecidableEq

/-- `df.isna().all(axis=1)` for one row: every cell is `NaN`. -/
def isEmptyRow (r : RawRow) : Bool :=
  r.open_time == none && r.open_ == none && r.high == none && r.low == none
    && r.close == none && r.volume == none && r.close_time == none
    && r.quote_asset_volume == none && r.number_of_trades == none
    && r.taker_buy_base_asset_volume == none
    && r.taker_buy_quote_asset_volume == none && r.ignore == none

/-- `series.duplicated().any()`: some entry equals an earlier entry (pandas
counts two `NaN`s as duplicates of each other, as does equality on
`Option`). -/
def hasDuplicates : List (Option Int) → Bool
  | [] => false
  | x :: xs => xs.contains x || hasDuplicates xs

/-- `assert_integrity(df)`: make sure no rows have empty cells or duplicate
timestamps exist.  The first `assert` checks for all-`NaN` rows, the second
for duplicated `open_time` values; a failing `assert` raises, modelled as
the error `IntegrityViolation` named by the design. -/
def assert_integrity (df : List RawRow) : Except String Unit :=
  if df.any isEmptyRow then .error "IntegrityViolation"
  else if hasDuplicates (df.map RawRow.open_time) then .error "IntegrityViolation"
  else .ok ()

/-- `df[df['open_time'].duplicated() == False]`: keep each row whose
`open_time` did not occur in an earlier row (`seen` is the set of values of
earlier rows). -/
def dedupGo (seen : List (Option Int)) : List RawRow → List RawRow
  | [] => []
  | r :: rest =>
    if seen.contains r.open_time then dedupGo seen rest
    else r :: dedupGo (r.open_time :: seen) rest

/-- Drop the rows whose `open_time` duplicates an earlier row's, keeping the
first occurrence. -/
def dedupByOpenTime (df : List RawRow) : List RawRow := dedupGo [] df

/-- `quick_clean(df)`: drop duplicates when `duplicated().sum() > 0`, then
re-check integrity and return the dataframe.  The descending sort
`df.sort_values(by=['open_time'], ascending=False)` on the source's line 69
computes a sorted copy and discards it, so it contributes nothing to the
returned dataframe and has no counterpart here. -/
def quick_clean (df : List RawRow) : Except String (List RawRow) :=
  let df' := if hasDuplicates (df.map RawRow.open_time) then dedupByOpenTime df else df
  match assert_integrity df' with
  | .error e => .error e
  | .ok _ => .ok df'

-- Lemmas about the cleaning path ----------------------------------------------

theorem contains_iff_mem_opt (seen : List (Option Int)) (x : Option Int) :
    seen.contains x = true ↔ x ∈ seen := by
  simp [List.contains_iff_exists_mem_beq, beq_iff_eq, eq_comm]

theorem hasDuplicates_iff :
    ∀ (l : List (Option Int)), hasDuplicates l = true ↔ ¬ l.Nodup := by
  intro l
  induction l with
  | nil => simp [hasDuplicates]
  | cons x xs ih =>
    rw [hasDuplicates, List.nodup_cons]
    rw [Bool.or_eq_true, contains_iff_mem_opt, ih]
    tauto

theorem assert_integrity_error_iff (df : List RawRow) :
    assert_integrity df = .error "IntegrityViolation"
      ↔ (df.any isEmptyRow = true ∨ hasDuplicates (df.map RawRow.open_time) = true) := by
  rw [assert_integrity]
  split_ifs with h1 h2
  · simp [h1]
  · simp [h2]
  · simp [h1, h2]

theorem assert_integrity_ok_iff (df : List RawRow) :
    assert_integrity df = .ok ()
      ↔ (df.any isEmptyRow = false ∧ hasDuplicates (df.map RawRow.open_time) = false) := by
  rw [assert_integrity]
  split_ifs with h1 h2
  · simp [h1]
  · simp [h2]
  · simp [h1, h2]

theorem dedupGo_sublist :
    ∀ (df : List RawRow) (seen : List (Option Int)), (dedupGo seen df).Sublist df := by
  intro df
  induction df with
  | nil => intro seen; exact List.Sublist.refl []
  | cons r rest ih =>
    intro seen
    rw [dedupGo]
    split_ifs
    · exact (ih seen).trans (List.sublist_cons_self r rest)
    · exact List.Sublist.cons₂ r (ih (r.open_time :: seen))

theorem dedupGo_not_mem_seen :
    ∀ (df : List RawRow) (seen : List (Option Int)) (t : Option Int),
      t ∈ (dedupGo seen df).map RawRow.open_time → t ∉ seen := by
  intro df
  induction df with
  | nil => intro seen t ht; exact absurd ht (by simp [dedupGo])
  | cons r rest ih =>
    intro seen t ht
    rw [dedupGo] at ht
    split_ifs at ht with hc
    · exact ih seen t ht
    · rw [List.map_cons, List.mem_cons] at ht
      rcases ht with h | h
      · subst h
        intro hmem
        exact hc ((contains_iff_mem_opt seen r.open_time).mpr hmem)
      · intro hmem
        exact ih (r.open_time :: seen) t h (List.mem_cons_of_mem _ hmem)

theorem dedupGo_nodup :
    ∀ (df : List RawRow) (seen : List (Option Int)),
      ((dedupGo seen df).map RawRow.open_time).Nodup := by
  intro df
  induction df with
  | nil => intro seen; simp [dedupGo]
  | cons r rest ih =>
    intro seen
    rw [dedupGo]
    split_ifs with hc
    · exact ih seen
    · rw [List.map_cons, List.nodup_cons]
      refine ⟨fun hmem => ?_, ih (r.open_time :: seen)⟩
      exact dedupGo_not_mem_seen rest (r.open_time :: seen) r.open_time hmem
        (List.mem_cons_self _ _)

theorem dedupGo_eq_self :
    ∀ (df : List RawRow) (seen : List (Option Int)),
      (df.map RawRow.open_time).Nodup →
      (∀ t ∈ df.map RawRow.open_time, t ∉ seen) →
      dedupGo seen df = df := by
  intro df
  induction df with
  | nil => intro seen _ _; rfl
  | cons r rest ih =>
    intro seen hnodup hdisj
    rw [List.map_cons, List.nodup_cons] at hnodup
    rw [dedupGo]
    have hc : ¬ (seen.contains r.open_time = true) := by
      rw [contains_iff_mem_opt]
      exact hdisj r.open_time (by simp)
    rw [if_neg hc, ih (r.open_time :: seen) hnodup.2]
    intro t ht
    rw [List.mem_cons]
    push_neg
    exact ⟨fun he => hnodup.1 (he ▸ ht), hdisj t (List.mem_cons_of_mem _ ht)⟩

theorem dedupByOpenTime_eq_self (df : List RawRow)
    (h : (df.map RawRow.open_time).Nodup) : dedupByOpenTime df = df :=
  dedupGo_eq_self df [] h (by simp)

/-- Unfolding equation of `quick_clean`. -/
theorem quick_clean_eq (df : List RawRow) :
    quick_clean df
      = match assert_integrity
          (if hasDuplicates (df.map RawRow.open_time) then dedupByOpenTime df else df) with
        | .error e => .error e
        | .ok _ =>
          .ok (if hasDuplicates (df.map RawRow.open_time) then dedupByOpenTime df else df) := rfl

/-- The dataset `quick_clean` validates and returns is `dedupByOpenTime df`
in both branches of its `dupes > 0` test. -/
theorem quick_clean_df'_eq (df : List RawRow) :
    (if hasDuplicates (df.map RawRow.open_time) then dedupByOpenTime df else df)
      = dedupByOpenTime df := by
  split_ifs with h
  · rfl
  · rw [dedupByOpenTime_eq_self]
    rw [Bool.not_eq_true, ← Bool.not_eq_true] at h
    by_contra hn
    exact h ((hasDuplicates_iff _).mpr hn)

theorem quick_clean_ok_elim (df out : List RawRow) (h : quick_clean df = .ok out) :
    out = dedupByOpenTime df ∧ assert_integrity out = .ok () := by
  rw [quick_clean_eq, quick_clean_df'_eq] at h
  cases hassert : assert_integrity (dedupByOpenTime df) with
  | error e => rw [hassert] at h; cases h
  | ok u =>
    rw [hassert] at h
    cases h
    cases u
    exact ⟨rfl, hassert⟩

/-- C1: for an input sorted ascending with consecutive records `r1` at minute
`t` and `r2` at minute `t + k` with `k ≥ 2`, the output of the gap filler
consists of the processed prefix ending in `r1`, then exactly `k - 1`
synthesized rows — the `i`-th at minute `t + 1 + i`, so minutes
`t+1 … t+k-1` — each with `volume`, `quote_asset_volume`,
`number_of_trades`, `taker_buy_base_asset_volume` and
`taker_buy_quote_asset_volume` equal to `0` and
`open = high = low = close` equal to `r1`'s close, and then `r2` followed by
the processed remainder. -/
theorem gapFiller_inserts_fillers_C1
    (pre post : List Record) (r1 r2 : Record) (t k : Int)
    (_hsort : sortedAsc (pre ++ r1 :: r2 :: post))
    (h1 : r1.datetime = t * minuteMs)
    (h2 : r2.datetime = (t + k) * minuteMs)
    (hk : 2 ≤ k) :
    addMissingMinutes (pre ++ r1 :: r2 :: post)
      = addMissingMinutes (pre ++ [r1])
        ++ ladder r1 t (k - 1).toNat ++ r2 :: addMissingMinutesGo (some r2) post
    ∧ (addMissingMinutes (pre ++ [r1])).getLast? = some r1
    ∧ (ladder r1 t (k - 1).toNat).length = (k - 1).toNat
    ∧ (∀ (i : Nat) (h : i < (ladder r1 t (k - 1).toNat).length),
        (ladder r1 t (k - 1).toNat).get ⟨i, h⟩
          = fillerAtMs r1 ((t + 1 + (i : Int)) * minuteMs))
    ∧ ∀ f ∈ ladder r1 t (k - 1).toNat,
        f.volume = 0 ∧ f.quote_asset_volume = 0 ∧ f.number_of_trades = 0
          ∧ f.taker_buy_base_asset_volume = 0 ∧ f.taker_buy_quote_asset_volume = 0
          ∧ f.open_ = r1.close ∧ f.high = r1.close ∧ f.low = r1.close
          ∧ f.close = r1.close := by
  refine ⟨?_, go_getLast r1 pre none, ladder_length r1 _ t,
    fun i h => ladder_get r1 _ t i h, fun f hf => ladder_mem_fields r1 _ t f hf⟩
  have hsplit : pre ++ r1 :: r2 :: post = (pre ++ [r1]) ++ (r2 :: post) := by simp
  rw [addMissingMinutes, hsplit, go_append, lastPrev_concat]
  rw [show addMissingMinutesGo (some r1) (r2 :: post)
    = gapFill (some r1) r2 ++ r2 :: addMissingMinutesGo (some r2) post from rfl]
  rw [gapFill_eq_ladder r1 r2 t k h1 h2 (by omega)]
  simp [addMissingMinutes]

/-- C2: consecutive records one minute apart (`k = 1`), at the same minute
(`k = 0`) or out of order (`k < 0`) get no synthesized rows between them,
and the first record of the input gets nothing inserted before it. -/
theorem gapFiller_no_gap_C2
    (pre post : List Record) (prev row : Record) (t k : Int)
    (hp : prev.datetime = t * minuteMs)
    (hr : row.datetime = (t + k) * minuteMs)
    (hk : k ≤ 1) :
    addMissingMinutes (pre ++ prev :: row :: post)
      = addMissingMinutes (pre ++ [prev]) ++ row :: addMissingMinutesGo (some row) post
    ∧ ∀ (r : Record) (rest : List Record),
        addMissingMinutes (r :: rest) = r :: addMissingMinutesGo (some r) rest := by
  refine ⟨?_, fun r rest => rfl⟩
  have hsplit : pre ++ prev :: row :: post = (pre ++ [prev]) ++ (row :: post) := by simp
  rw [addMissingMinutes, hsplit, go_append, lastPrev_concat]
  rw [show addMissingMinutesGo (some prev) (row :: post)
    = gapFill (some prev) row ++ row :: addMissingMinutesGo (some row) post from rfl]
  rw [gapFill_eq_nil prev row t k hp hr hk]
  simp [addMissingMinutes]

/-- Invariant carried through the main loop: starting after a minute-aligned
previous row `p` that precedes a minute-aligned strictly ascending input,
the output chained after `p` advances by exactly one minute per row, and its
length is the input length plus the missing minutes of all gaps. -/
theorem go_chain_length :
    ∀ (l : List Record) (p : Record),
      minuteMs ∣ p.datetime → minuteAligned l →
      List.Chain (fun a b => a.datetime < b.datetime) p l →
      List.Chain' oneMin (p :: addMissingMinutesGo (some p) l)
        ∧ (addMissingMinutesGo (some p) l).length = l.length + gapsMissing (p :: l) := by
  intro l
  induction l with
  | nil =>
    intro p _ _ _
    exact ⟨List.chain'_singleton p, by simp [addMissingMinutesGo, gapsMissing]⟩
  | cons row rest ih =>
    intro p hp hal hchain
    obtain ⟨tp, htp⟩ := hp
    obtain ⟨tr, htr⟩ := hal row (List.mem_cons_self row rest)
    rw [List.chain_cons] at hchain
    obtain ⟨hlt, hchain'⟩ := hchain
    have hp' : p.datetime = tp * minuteMs := by rw [htp]; ring
    have hr' : row.datetime = tr * minuteMs := by rw [htr]; ring
    have htplt : tp < tr := by
      by_contra hcon
      push_neg at hcon
      have hmle : tr * minuteMs ≤ tp * minuteMs :=
        mul_le_mul_of_nonneg_right hcon (by norm_num [minuteMs])
      rw [hp', hr'] at hlt
      omega
    have hk1 : 1 ≤ tr - tp := by omega
    have hr'' : row.datetime = (tp + (tr - tp)) * minuteMs := by
      rw [hr']
      congr 1
      omega
    have hgo : addMissingMinutesGo (some p) (row :: rest)
        = gapFill (some p) row ++ row :: addMissingMinutesGo (some row) rest := rfl
    rw [hgo, gapFill_eq_ladder p row tp (tr - tp) hp' hr'' hk1]
    have hal' : minuteAligned rest := fun r hr => hal r (List.mem_cons_of_mem row hr)
    obtain ⟨ihchain, ihlen⟩ := ih row ⟨tr, by rw [hr']; ring⟩ hal' hchain'
    constructor
    · have hrowlad : row.datetime = (tp + 1 + ((tr - tp - 1).toNat : Int)) * minuteMs := by
        rw [hr'']
        congr 1
        omega
      have hlad := chain_ladder p (tr - tp - 1).toNat p row tp hp' hrowlad
      rw [show (p :: (ladder p tp (tr - tp - 1).toNat ++ [row]))
          = (p :: ladder p tp (tr - tp - 1).toNat) ++ [row] from rfl,
        List.chain'_append] at hlad
      obtain ⟨hchain1, _, hjoin⟩ := hlad
      show List.Chain' oneMin
        ((p :: ladder p tp (tr - tp - 1).toNat)
          ++ (row :: addMissingMinutesGo (some row) rest))
      rw [List.chain'_append]
      refine ⟨hchain1, ihchain, fun x hx y hy => ?_⟩
      have hy' : row = y := by
        simpa only [List.head?_cons, Option.mem_def, Option.some.injEq] using hy
      rw [← hy']
      exact hjoin x hx row (by simp)
    · rw [List.length_append, List.length_cons, ladder_length, ihlen]
      have hgaps : gapsMissing (p :: row :: rest)
          = ((row.datetime - p.datetime) / minuteMs - 1).toNat
            + gapsMissing (row :: rest) := rfl
      have hdiv : (row.datetime - p.datetime) / minuteMs = tr - tp := by
        rw [hp', hr']
        have hsub : tr * minuteMs - tp * minuteMs = (tr - tp) * minuteMs := by ring
        rw [hsub]
        exact Int.mul_ediv_cancel (tr - tp) (by norm_num [minuteMs])
      rw [hgaps, hdiv, List.length_cons]
      omega

/-- C3: on a minute-aligned, strictly ascending input, the gap filler's
output has consecutive rows exactly one minute apart, and its length is the
input length plus the total number of missing minutes across all gaps. -/
theorem gapFiller_continuity_C3 (l : List Record)
    (hal : minuteAligned l) (hs : strictlyAsc l) :
    List.Chain' oneMin (addMissingMinutes l)
    ∧ (addMissingMinutes l).length = l.length + gapsMissing l := by
  cases l with
  | nil => exact ⟨List.chain'_nil, rfl⟩
  | cons p rest =>
    have hc : List.Chain (fun a b => a.datetime < b.datetime) p rest := hs
    obtain ⟨hchain, hlen⟩ :=
      go_chain_length rest p (hal p (List.mem_cons_self p rest))
        (fun r hr => hal r (List.mem_cons_of_mem p hr)) hc
    have hunf : addMissingMinutes (p :: rest) = p :: addMissingMinutesGo (some p) rest := rfl
    rw [hunf]
    refine ⟨hchain, ?_⟩
    rw [List.length_cons, hlen, List.length_cons]
    omega

/-- C10: the gap filler's output contains every input row unchanged and in
the same relative order (the input is a sublist of the output), begins with
the first input row, ends with the last input row, and is empty on empty
input. -/
theorem gapFiller_frame_C10 (l : List Record) :
    l.Sublist (addMissingMinutes l)
    ∧ (addMissingMinutes l).head? = l.head?
    ∧ (addMissingMinutes l).getLast? = l.getLast?
    ∧ addMissingMinutes ([] : List Record) = [] := by
  refine ⟨sublist_go l none, ?_, ?_, rfl⟩
  · cases l with
    | nil => rfl
    | cons a l' => rfl
  · rcases List.eq_nil_or_concat l with h | ⟨l', x, h⟩
    · subst h; rfl
    · subst h
      rw [List.concat_eq_append, List.getLast?_concat]
      exact go_getLast x l' none

-- Claim theorems for the cleaning path ----------------------------------------

/-- C4: `assert_integrity` fails with `IntegrityViolation` exactly when the
dataset has two rows sharing an `open_time` value or an all-empty row, and
succeeds (returning unit, leaving the dataset untouched) exactly otherwise. -/
theorem assert_integrity_C4 (df : List RawRow) :
    (assert_integrity df = .error "IntegrityViolation"
      ↔ (¬ (df.map RawRow.open_time).Nodup ∨ ∃ r ∈ df, isEmptyRow r = true))
    ∧ (assert_integrity df = .ok ()
      ↔ ((df.map RawRow.open_time).Nodup ∧ ∀ r ∈ df, isEmptyRow r = false)) := by
  have hdupf : hasDuplicates (df.map RawRow.open_time) = false
      ↔ (df.map RawRow.open_time).Nodup := by
    rw [← Bool.not_eq_true, hasDuplicates_iff, not_not]
  have hdupt := hasDuplicates_iff (df.map RawRow.open_time)
  have hany : df.any isEmptyRow = true ↔ ∃ r ∈ df, isEmptyRow r = true := by
    simp [List.any_eq_true]
  have hanyf : df.any isEmptyRow = false ↔ ∀ r ∈ df, isEmptyRow r = false := by
    simp [List.any_eq_false]
  constructor
  · rw [assert_integrity_error_iff, hdupt, hany]
    exact or_comm
  · rw [assert_integrity_ok_iff, hdupf, hanyf]
    exact and_comm

/-- C5: cleaning is idempotent — whenever `quick_clean df` succeeds with
`out`, running `quick_clean` on `out` succeeds and returns `out` again. -/
theorem quick_clean_idem_C5 (df out : List RawRow) (h : quick_clean df = .ok out) :
    quick_clean out = .ok out := by
  obtain ⟨hout, hok⟩ := quick_clean_ok_elim df out h
  rw [assert_integrity_ok_iff] at hok
  rw [quick_clean_eq]
  have hif : (if hasDuplicates (out.map RawRow.open_time)
      then dedupByOpenTime out else out) = out := by
    rw [hok.2]
    simp
  rw [hif, (assert_integrity_ok_iff out).mpr hok]

/-- A row whose twelve cells are all `NaN`. -/
def emptyRawRow : RawRow :=
  { open_time := none, open_ := none, high := none, low := none,
    close := none, volume := none, close_time := none,
    quote_asset_volume := none, number_of_trades := none,
    taker_buy_base_asset_volume := none, taker_buy_quote_asset_volume := none,
    ignore := none }

/-- C6 counterexample: a dataset holding a single all-empty row reaches the
`IntegrityViolation` branch of `quick_clean` — the re-check is not
unreachable, because the duplicate-dropping step never removes empty rows. -/
theorem quick_clean_reaches_violation_cex :
    quick_clean [emptyRawRow] = .error "IntegrityViolation" := rfl

/-- C6 amended: the duplicates-remain condition of the final integrity
re-check is indeed unreachable (the dataset `quick_clean` validates never
has duplicated `open_time`s), but the empty-rows condition is reachable:
`quick_clean` fails with `IntegrityViolation` exactly when an all-empty row
survives deduplication. -/
theorem quick_clean_failure_char_C6 (df : List RawRow) :
    (quick_clean df = .error "IntegrityViolation"
      ↔ ∃ r ∈ dedupByOpenTime df, isEmptyRow r = true)
    ∧ hasDuplicates ((dedupByOpenTime df).map RawRow.open_time) = false := by
  have hnodup : ((dedupByOpenTime df).map RawRow.open_time).Nodup := dedupGo_nodup df []
  have hdupf : hasDuplicates ((dedupByOpenTime df).map RawRow.open_time) = false := by
    rw [← Bool.not_eq_true, hasDuplicates_iff, not_not]
    exact hnodup
  refine ⟨?_, hdupf⟩
  rw [quick_clean_eq, quick_clean_df'_eq]
  cases hassert : assert_integrity (dedupByOpenTime df) with
  | error e =>
    have he : e = "IntegrityViolation" := by
      rw [assert_integrity] at hassert
      split_ifs at hassert <;> exact (Except.error.inj hassert).symm
    subst he
    have hex : ∃ r ∈ dedupByOpenTime df, isEmptyRow r = true := by
      rcases (assert_integrity_error_iff _).mp hassert with hany | hdup
      · simpa [List.any_eq_true] using hany
      · rw [hdupf] at hdup
        cases hdup
    simp [hex]
  | ok u =>
    cases u
    have hok := (assert_integrity_ok_iff _).mp hassert
    have hnone : ¬ ∃ r ∈ dedupByOpenTime df, isEmptyRow r = true := by
      rw [← List.any_eq_true, hok.1]
      simp
    simp [hnone]

/-- A fully populated raw row at timestamp `ts` (a well-formed one-minute
candle, used as concrete test data). -/
def rawRowAt (ts : Int) : RawRow :=
  { open_time := some ts, open_ := some 1, high := some 2, low := some 1,
    close := some 2, volume := some 3, close_time := some (ts + 59999),
    quote_asset_volume := some 4, number_of_trades := some 5,
    taker_buy_base_asset_volume := some 6, taker_buy_quote_asset_volume := some 7,
    ignore := some 0 }

/-- The rows of a dataset are ordered by descending timestamp. -/
def descendingByOpenTime (l : List RawRow) : Prop :=
  l.Chain' (fun a b => ∀ x y, a.open_time = some x → b.open_time = some y → y ≤ x)

/-- C7 counterexample: on an ascending two-row dataset with distinct
timestamps, `quick_clean` returns the rows in their original ascending
order — the descending sort is computed but discarded, so the output is not
ordered by descending timestamp. -/
theorem quick_clean_not_descending_cex :
    quick_clean [rawRowAt 0, rawRowAt 60000] = .ok [rawRowAt 0, rawRowAt 60000]
    ∧ ¬ descendingByOpenTime [rawRowAt 0, rawRowAt 60000] := by
  constructor
  · rfl
  · intro h
    rw [descendingByOpenTime, List.chain'_cons] at h
    have h60 := h.1 0 60000 rfl rfl
    norm_num at h60

/-- C7 amended: `quick_clean` returns exactly the input rows with each row
whose `open_time` duplicates an earlier row's removed (first occurrence
kept, later duplicates dropped rather than merged), and the kept rows
appear in their original input order (the computed descending sort is
discarded, so no reordering happens). -/
theorem quick_clean_spec_C7 (df out : List RawRow) (h : quick_clean df = .ok out) :
    out = dedupByOpenTime df ∧ out.Sublist df
      ∧ (out.map RawRow.open_time).Nodup := by
  obtain ⟨hout, _⟩ := quick_clean_ok_elim df out h
  subst hout
  exact ⟨rfl, dedupGo_sublist df [], dedupGo_nodup df []⟩

/-- A dataset with a duplicated timestamp, and its deduplicated form. -/
def exDupDf : List RawRow := [rawRowAt 0, rawRowAt 0, rawRowAt 60000]

def exDedupDf : List RawRow := [rawRowAt 0, rawRowAt 60000]

theorem quick_clean_idem_C5_witness :
    quick_clean exDupDf = .ok exDedupDf ∧ quick_clean exDedupDf = .ok exDedupDf :=
  ⟨rfl, quick_clean_idem_C5 exDupDf exDedupDf rfl⟩

theorem quick_clean_spec_C7_witness :
    quick_clean exDupDf = .ok exDedupDf
    ∧ (exDedupDf = dedupByOpenTime exDupDf ∧ exDedupDf.Sublist exDupDf
        ∧ (exDedupDf.map RawRow.open_time).Nodup) :=
  ⟨rfl, quick_clean_spec_C7 exDupDf exDedupDf rfl⟩

-- Conversion pipeline: set_dtypes_compressed and write_raw_to_parquet --------

/-- A fully populated numeric raw row, as handed to `write_raw_to_parquet`
(the twelve CSV columns with concrete numeric cells). -/
structure FullRow where
  open_time : Int
  open_ : Rat
  high : Rat
  low : Rat
  close : Rat
  volume : Rat
  close_time : Int
  quote_asset_volume : Rat
  number_of_trades : Int
  taker_buy_base_asset_volume : Rat
  taker_buy_quote_asset_volume : Rat
  ignore : Rat
deriving DecidableEq

/-- A row after `df.drop(['close_time', 'ignore'], axis=1)`. -/
structure CompactInRow where
  open_time : Int
  open_ : Rat
  high : Rat
  low : Rat
  close : Rat
  volume : Rat
  quote_asset_volume : Rat
  number_of_trades : Int
  taker_buy_base_asset_volume : Rat
  taker_buy_quote_asset_volume : Rat
deriving DecidableEq

/-- Modelled from the spec: the failure semantics of the `astype` cast to a
16-bit unsigned integer in `set_dtypes_compressed` is pandas library
behaviour, not code of this repository; per the spec's Type Normalizer
contract it fails with `TypeCastError` when the value cannot be represented
in the target type, i.e. lies outside `[0, 65536)`. -/
def castUint16 (n : Int) : Except String Int :=
  if 0 ≤ n ∧ n < 65536 then .ok n else .error "TypeCastError"

/-- `set_dtypes_compressed(df)`: convert all critical columns to the
low-memory profile.  The `float32` narrowing of the price and volume
columns is value-preserving in this model (rounding precision is outside
its scope); the cast of `number_of_trades` to `uint16` is the checked cast
`castUint16`.  The `DatetimeIndex` creation keeps `open_time` as the
ordering key, non-destructively. -/
def set_dtypes_compressed : List CompactInRow → Except String (List CompactInRow)
  | [] => .ok []
  | r :: rest =>
    match castUint16 r.number_of_trades with
    | .error e => .error e
    | .ok n =>
      match set_dtypes_compressed rest with
      | .error e => .error e
      | .ok rs => .ok ({ r with number_of_trades := n } :: rs)

/-- `df.drop(['close_time', 'ignore'], axis=1)` on one row. -/
def drop_close_time_ignore (r : FullRow) : CompactInRow :=
  { open_time := r.open_time, open_ := r.open_, high := r.high, low := r.low,
    close := r.close, volume := r.volume,
    quote_asset_volume := r.quote_asset_volume,
    number_of_trades := r.number_of_trades,
    taker_buy_base_asset_volume := r.taker_buy_base_asset_volume,
    taker_buy_quote_asset_volume := r.taker_buy_quote_asset_volume }

/-- `df['datetime'] = df.index` on one row: materialize the timestamp index
as the `datetime` column of the gap-filling stage. -/
def materializeDatetime (r : CompactInRow) : Record :=
  { open_ := r.open_, high := r.high, low := r.low, close := r.close,
    volume := r.volume, quote_asset_volume := r.quote_asset_volume,
    number_of_trades := r.number_of_trades,
    taker_buy_base_asset_volume := r.taker_buy_base_asset_volume,
    taker_buy_quote_asset_volume := r.taker_buy_quote_asset_volume,
    datetime := r.open_time }

/-- `write_raw_to_parquet(df, path)` up to persistence: filter out rows not
spanning a full minute (`df[~(df['open_time'] - df['close_time'] !=
-59999)]`), drop `close_time` and `ignore`, apply the compressed dtypes,
materialize the timestamp and fill missing minutes.  The resulting dataset
is what `to_parquet` writes; the on-disk write itself is I/O outside the
model. -/
def write_raw_to_parquet (df : List FullRow) : Except String (List Record) :=
  match set_dtypes_compressed
      ((df.filter (fun r => !(r.open_time - r.close_time != -59999))).map
        drop_close_time_ignore) with
  | .error e => .error e
  | .ok compact => .ok (addMissingMinutes (compact.map materializeDatetime))

-- Claim theorems for the conversion pipeline ---------------------------------

/-- C8: a dataset containing a `number_of_trades` value outside the range of
a 16-bit unsigned integer makes the compact type normalizer fail with
`TypeCastError` instead of producing a dataset. -/
theorem set_dtypes_compressed_range_C8 (df : List CompactInRow)
    (h : ∃ r ∈ df, r.number_of_trades < 0 ∨ 65536 ≤ r.number_of_trades) :
    set_dtypes_compressed df = .error "TypeCastError" := by
  induction df with
  | nil =>
    obtain ⟨r, hr, _⟩ := h
    exact absurd hr (List.not_mem_nil r)
  | cons r rest ih =>
    obtain ⟨s, hs, hrange⟩ := h
    cases hcast : castUint16 r.number_of_trades with
    | error e =>
      have he : e = "TypeCastError" := by
        rw [castUint16] at hcast
        split_ifs at hcast
        exact (Except.error.inj hcast).symm
      rw [set_dtypes_compressed, hcast, he]
    | ok n =>
      rcases List.mem_cons.mp hs with hsr | hsrest
      · subst hsr
        rw [castUint16] at hcast
        split_ifs at hcast with hc
        omega
      · rw [set_dtypes_compressed, hcast, ih ⟨s, hsrest, hrange⟩]

/-- A compact row with an out-of-range trade count. -/
def badTradesRow : CompactInRow :=
  { open_time := 0, open_ := 1, high := 1, low := 1, close := 1, volume := 1,
    quote_asset_volume := 1, number_of_trades := 70000,
    taker_buy_base_asset_volume := 1, taker_buy_quote_asset_volume := 1 }

theorem set_dtypes_compressed_range_C8_witness :
    (∃ r ∈ [badTradesRow], r.number_of_trades < 0 ∨ 65536 ≤ r.number_of_trades)
    ∧ set_dtypes_compressed [badTradesRow] = .error "TypeCastError" :=
  ⟨by decide, set_dtypes_compressed_range_C8 [badTradesRow] (by decide)⟩

/-- C9: a row whose `open_time - close_time` differs from `-59999` ms is
removed by the pipeline's first step: the whole conversion behaves as if
the row were never present (so it neither reaches the compact output nor
serves as the previous record for any synthesized filler), and the row is
absent from the filtered dataset every later stage consumes. -/
theorem write_raw_filters_malformed_C9 (df : List FullRow) (r : FullRow)
    (_hr : r ∈ df) (hbad : r.open_time - r.close_time ≠ -59999) :
    write_raw_to_parquet df
      = write_raw_to_parquet
          (df.filter (fun x => !(x.open_time - x.close_time != -59999)))
    ∧ r ∉ df.filter (fun x => !(x.open_time - x.close_time != -59999)) := by
  constructor
  · have hidem :
        (df.filter (fun x => !(x.open_time - x.close_time != -59999))).filter
            (fun x => !(x.open_time - x.close_time != -59999))
          = df.filter (fun x => !(x.open_time - x.close_time != -59999)) := by
      rw [List.filter_filter]
      exact List.filter_congr (fun x _ => Bool.and_self _)
    rw [write_raw_to_parquet, write_raw_to_parquet, hidem]
  · intro hmem
    have hp := (List.mem_filter.mp hmem).2
    simp only [Bool.not_eq_true', bne_eq_false_iff_eq] at hp
    exact hbad hp

/-- A malformed candle (spans only 50 seconds) and a well-formed one. -/
def badDurationRow : FullRow :=
  { open_time := 0, open_ := 1, high := 1, low := 1, close := 1, volume := 1,
    close_time := 50000, quote_asset_volume := 1, number_of_trades := 1,
    taker_buy_base_asset_volume := 1, taker_buy_quote_asset_volume := 1,
    ignore := 0 }

def goodDurationRow : FullRow :=
  { open_time := 60000, open_ := 1, high := 1, low := 1, close := 1,
    volume := 1, close_time := 119999, quote_asset_volume := 1,
    number_of_trades := 1, taker_buy_base_asset_volume := 1,
    taker_buy_quote_asset_volume := 1, ignore := 0 }

theorem write_raw_filters_malformed_C9_witness :
    (badDurationRow ∈ [badDurationRow, goodDurationRow]
      ∧ badDurationRow.open_time - badDurationRow.close_time ≠ -59999)
    ∧ (write_raw_to_parquet [badDurationRow, goodDurationRow]
        = write_raw_to_parquet
            ([badDurationRow, goodDurationRow].filter
              (fun x => !(x.open_time - x.close_time != -59999)))
      ∧ badDurationRow ∉ [badDurationRow, goodDurationRow].filter
          (fun x => !(x.open_time - x.close_time != -59999))) :=
  ⟨⟨by decide, by decide⟩,
    write_raw_filters_malformed_C9 [badDurationRow, goodDurationRow]
      badDurationRow (by decide) (by decide)⟩


-- Witnesses for the gap-filler claims -----------------------------------------

/-- A concrete candle row at millisecond timestamp `dt`. -/
def wRec (dt : Int) : Record :=
  { open_ := 2, high := 3, low := 1, close := 5, volume := 7,
    quote_asset_volume := 11, number_of_trades := 13,
    taker_buy_base_asset_volume := 17, taker_buy_quote_asset_volume := 19,
    datetime := dt }

theorem gapFiller_inserts_fillers_C1_witness :
    sortedAsc ([] ++ wRec 0 :: wRec 180000 :: [])
    ∧ (wRec 0).datetime = 0 * minuteMs
    ∧ (wRec 180000).datetime = (0 + 3) * minuteMs
    ∧ (2 : Int) ≤ 3
    ∧ (addMissingMinutes ([] ++ wRec 0 :: wRec 180000 :: [])
        = addMissingMinutes ([] ++ [wRec 0])
          ++ ladder (wRec 0) 0 ((3 : Int) - 1).toNat
          ++ wRec 180000 :: addMissingMinutesGo (some (wRec 180000)) []
      ∧ (addMissingMinutes ([] ++ [wRec 0])).getLast? = some (wRec 0)
      ∧ (ladder (wRec 0) 0 ((3 : Int) - 1).toNat).length = ((3 : Int) - 1).toNat
      ∧ (∀ (i : Nat) (h : i < (ladder (wRec 0) 0 ((3 : Int) - 1).toNat).length),
          (ladder (wRec 0) 0 ((3 : Int) - 1).toNat).get ⟨i, h⟩
            = fillerAtMs (wRec 0) ((0 + 1 + (i : Int)) * minuteMs))
      ∧ ∀ f ∈ ladder (wRec 0) 0 ((3 : Int) - 1).toNat,
          f.volume = 0 ∧ f.quote_asset_volume = 0 ∧ f.number_of_trades = 0
            ∧ f.taker_buy_base_asset_volume = 0
            ∧ f.taker_buy_quote_asset_volume = 0
            ∧ f.open_ = (wRec 0).close ∧ f.high = (wRec 0).close
            ∧ f.low = (wRec 0).close ∧ f.close = (wRec 0).close) :=
  ⟨List.Chain.cons (by decide) List.Chain.nil, by decide, by decide, by decide,
    gapFiller_inserts_fillers_C1 [] [] (wRec 0) (wRec 180000) 0 3
      (List.Chain.cons (by decide) List.Chain.nil) (by decide) (by decide)
      (by decide)⟩

theorem gapFiller_no_gap_C2_witness :
    (wRec 0).datetime = 0 * minuteMs
    ∧ (wRec 60000).datetime = (0 + 1) * minuteMs
    ∧ (1 : Int) ≤ 1
    ∧ (addMissingMinutes ([] ++ wRec 0 :: wRec 60000 :: [])
        = addMissingMinutes ([] ++ [wRec 0])
          ++ wRec 60000 :: addMissingMinutesGo (some (wRec 60000)) []
      ∧ ∀ (r : Record) (rest : List Record),
          addMissingMinutes (r :: rest) = r :: addMissingMinutesGo (some r) rest) :=
  ⟨by decide, by decide, by decide,
    gapFiller_no_gap_C2 [] [] (wRec 0) (wRec 60000) 0 1
      (by decide) (by decide) (by decide)⟩

theorem gapFiller_continuity_C3_witness :
    minuteAligned [wRec 0, wRec 120000]
    ∧ strictlyAsc [wRec 0, wRec 120000]
    ∧ (List.Chain' oneMin (addMissingMinutes [wRec 0, wRec 120000])
      ∧ (addMissingMinutes [wRec 0, wRec 120000]).length
          = [wRec 0, wRec 120000].length + gapsMissing [wRec 0, wRec 120000]) :=
  ⟨by unfold minuteAligned; decide, List.Chain.cons (by decide) List.Chain.nil,
    gapFiller_continuity_C3 [wRec 0, wRec 120000]
      (by unfold minuteAligned; decide)
      (List.Chain.cons (by decide) List.Chain.nil)⟩
